import Mathlib

/-!
Verification of the `mtg-hash` chunked hashing engine (`src/index.ts`).

Shallow embedding conventions:
* A browser `File` is a named byte sequence; bytes are `Nat`.
* `SparkMD5.ArrayBuffer` is an external dependency; its incremental state is
  modelled as the list of bytes appended so far, and `end()` (here
  `finalize`, since `end` is a Lean keyword) is modelled injectively as the
  accumulated stream itself.  This is sound for the spec's claims: MD5 is a
  deterministic function of the appended byte stream, and the spec's digest
  (in)equalities are intended as (in)equalities of that stream.
* `FileReader.readAsArrayBuffer(chunk)` yields the chunk's bytes.
* The parallel runner (`multiThreadHash`) is modelled as a state machine:
  worker replies arrive as a schedule of messages, each carrying the wire
  fields `{ index, buffer?, error? }` of the worker protocol; `handleMessage`
  is a direct translation of the message handler.  A message whose index is
  not currently in flight cannot occur in a real run and is a no-op.
-/

namespace MtgHash

/-- A browser `File`: a name and its bytes. -/
structure File where
  name : String
  content : List Nat
deriving Repr, DecidableEq

def File.size (f : File) : Nat := f.content.length

/-- The slice `file.slice(start, stop)`: the bytes in `[start, stop)`. -/
def File.slice (f : File) (start stop : Nat) : List Nat :=
  (f.content.take stop).drop start

/-- A chunk as produced by `createChunks`: a blob slice tagged with the
owning file's name (`chunk.fileId = file.name`). -/
structure Chunk where
  data : List Nat
  fileId : String
deriving Repr, DecidableEq

/-- The loop body of `createChunks`: `for (let i = 0; i < file.size; i += chunkSize)`
slicing `[i, min(i + chunkSize, size))`.  The source loop diverges when
`chunkSize = 0` (the offset never advances); the embedding returns `[]` in
that out-of-contract case to stay total — all claims assume `chunkSize > 0`. -/
def createChunksFrom (f : File) (chunkSize i : Nat) : List Chunk :=
  if h : 0 < chunkSize ∧ i < f.size then
    { data := f.slice i (min (i + chunkSize) f.size), fileId := f.name } ::
      createChunksFrom f chunkSize (i + chunkSize)
  else
    []
termination_by f.size - i
decreasing_by omega

/-- The chunker `createChunks(file, chunkSize)` from `src/index.ts`. -/
def createChunks (f : File) (chunkSize : Nat) : List Chunk :=
  createChunksFrom f chunkSize 0

/-- Incremental digest state (`new SparkMD5.ArrayBuffer()`), modelled as the
byte stream appended so far. -/
structure Spark where
  acc : List Nat
deriving Repr, DecidableEq

def Spark.new : Spark := ⟨[]⟩

/-- Appending, `spark.append(buffer)`. -/
def Spark.append (s : Spark) (b : List Nat) : Spark := ⟨s.acc ++ b⟩

/-- Finalization, `spark.end()` — the digest, modelled injectively as the accumulated
byte stream (`end` is a Lean keyword). -/
def Spark.finalize (s : Spark) : List Nat := s.acc

/-- The digest of a zero-byte input: finalizing a fresh accumulator. -/
def emptyInputDigest : List Nat := Spark.new.finalize

/-- The progress record passed to `onProgress`. -/
structure ProgressData where
  name : Option String
  current : Nat
  total : Nat
  percent : String
deriving Repr, DecidableEq

/-- JS `((current / total) * 100).toFixed(1)`: the percentage rounded to the
nearest tenth (ties up, as `toFixed` does for positive values), rendered
with one decimal digit.  `tenths = ⌊1000 * current / total + 1/2⌋`. -/
def percentStr (current total : Nat) : String :=
  let tenths := (2000 * current + total) / (2 * total)
  toString (tenths / 10) ++ "." ++ toString (tenths % 10)

/-- The loop of `singleThreadHash`: read each chunk's bytes, append to the
accumulator, then report progress `{current: i+1, total, percent, name}`.
Returns the final accumulator and the list of progress reports in order. -/
def singleThreadAux (fileName : String) (total : Nat) :
    List Chunk → Spark → Nat → Spark × List ProgressData
  | [], spark, _ => (spark, [])
  | c :: rest, spark, done =>
    let spark := spark.append c.data
    let p : ProgressData :=
      { name := some fileName, current := done + 1, total := total
        percent := percentStr (done + 1) total }
    let r := singleThreadAux fileName total rest spark (done + 1)
    (r.1, p :: r.2)

/-- Model of `singleThreadHash(chunks, fileName, onProgress)`: the resolved digest
together with the sequence of `onProgress` invocations. -/
def singleThreadHash (chunks : List Chunk) (fileName : String) :
    List Nat × List ProgressData :=
  let r := singleThreadAux fileName chunks.length chunks Spark.new 0
  (r.1.finalize, r.2)

/-- A message posted back by a worker: the wire fields `{ index, buffer?, error? }`
of the worker protocol in `multiThreadHash`. -/
structure WorkerMsg where
  index : Nat
  buffer : Option (List Nat)
  error : Option String
deriving Repr, DecidableEq

/-- A faithful worker reply for chunk `i` of `chunks`: the buffer holds the
fetched chunk's bytes and no error is reported. -/
def okMsg (chunks : List Chunk) (i : Nat) : WorkerMsg :=
  { index := i, buffer := some ((chunks.getD i ⟨[], ""⟩).data), error := none }

/-- How a run of `multiThreadHash` settled: `resolve(digest)` or `reject(msg)`. -/
inductive Outcome where
  | ok (digest : List Nat)
  | err (msg : String)
deriving Repr, DecidableEq

/-- The mutable state of one `multiThreadHash` invocation: the dispatch
cursor `currentIndex`, the completion counter `processedChunks`, the digest
accumulator, the chunk indices dispatched but not yet answered (`inFlight`),
the `onProgress` invocations so far, how the promise settled (`none` while
pending), the pool size, and whether every worker has been terminated. -/
structure MTState where
  workerCount : Nat
  currentIndex : Nat
  processedChunks : Nat
  spark : Spark
  inFlight : List Nat
  progress : List ProgressData
  outcome : Option Outcome
  allTerminated : Bool
deriving Repr, DecidableEq

/-- The worker-initialization loop of `multiThreadHash` (lines 156–171): each
of the `workerCount` workers is posted the next chunk while
`currentIndex < chunks.length`.  Returns the advanced cursor and the
dispatched indices. -/
def mtInitLoop (len : Nat) : Nat → Nat × List Nat → Nat × List Nat
  | 0, st => st
  | k + 1, (currentIndex, inFlight) =>
    if currentIndex < len then
      mtInitLoop len k (currentIndex + 1, inFlight ++ [currentIndex])
    else
      mtInitLoop len k (currentIndex, inFlight)

/-- The state of `multiThreadHash(chunks, …)` after worker creation and
initial dispatch.  `workerCount = min(navigator.hardwareConcurrency || 4,
chunks.length)`; `hardwareConcurrency = 0` models an absent value. -/
def mtInit (hardwareConcurrency : Nat) (chunks : List Chunk) : MTState :=
  let workerCount :=
    min (if hardwareConcurrency = 0 then 4 else hardwareConcurrency) chunks.length
  let st := mtInitLoop chunks.length workerCount (0, [])
  { workerCount := workerCount
    currentIndex := st.1
    processedChunks := 0
    spark := Spark.new
    inFlight := st.2
    progress := []
    outcome := none
    allTerminated := false }

/-- The handler `handleMessage` of `multiThreadHash` (lines 114–153), as a step on the
runner state.  A message is only deliverable while the promise is pending
(after `resolve`/`reject` every worker has been terminated) and only for an
index actually in flight; impossible messages leave the state unchanged.
On an error: terminate all and reject with `分块处理错误: <error>`.
On a missing buffer: terminate all and reject with `分块数据为空: <index>`.
Otherwise: append the buffer, count it, report progress, hand the worker the
next chunk if any (else terminate it), and resolve once all chunks are in. -/
def handleMessage (chunks : List Chunk) (fileName : String)
    (s : MTState) (m : WorkerMsg) : MTState :=
  if s.outcome.isSome then s
  else if m.index ∈ s.inFlight then
    match m.error with
    | some e => { s with outcome := some (.err ("分块处理错误: " ++ e)), allTerminated := true }
    | none =>
      match m.buffer with
      | none =>
        { s with outcome := some (.err ("分块数据为空: " ++ toString m.index))
                 allTerminated := true }
      | some buffer =>
        let spark := s.spark.append buffer
        let processedChunks := s.processedChunks + 1
        let progress := s.progress ++
          [{ name := some fileName, current := processedChunks
             total := chunks.length
             percent := percentStr processedChunks chunks.length }]
        let s' :=
          if s.currentIndex < chunks.length then
            { s with spark := spark, processedChunks := processedChunks
                     progress := progress
                     inFlight := s.inFlight.erase m.index ++ [s.currentIndex]
                     currentIndex := s.currentIndex + 1 }
          else
            { s with spark := spark, processedChunks := processedChunks
                     progress := progress
                     inFlight := s.inFlight.erase m.index }
        if processedChunks = chunks.length then
          { s' with outcome := some (.ok spark.finalize), allTerminated := true }
        else
          s'
  else
    s

/-- Run `multiThreadHash(chunks, fileName, onProgress)` against a schedule of
worker replies, delivered in arrival order. -/
def mtRun (hardwareConcurrency : Nat) (chunks : List Chunk) (fileName : String)
    (sched : List WorkerMsg) : MTState :=
  sched.foldl (handleMessage chunks fileName) (mtInit hardwareConcurrency chunks)

/-- Which runner `calculateHash` routes to. -/
inductive Route where
  | single | multi
deriving Repr, DecidableEq

/-- The option bag of `calculateHash`; `none` models an absent field. -/
structure HashOptions where
  chunkSize : Option Nat := none
  useWorkerThreshold : Option Nat := none
deriving Repr, DecidableEq

/-- Model of `calculateHash(file, options)` (lines 176–200): apply the defaults
(`chunkSize = useWorkerThreshold = 10 MiB`), chunk the file, and route on
`file.size >= useWorkerThreshold`.  The chosen runner's execution is
environment-dependent (worker scheduling), so the model returns the routing
decision together with the chunk list handed to that runner. -/
def calculateHash (f : File) (opts : HashOptions) : Route × List Chunk :=
  let chunkSize := opts.chunkSize.getD (10 * 1024 * 1024)
  let useWorkerThreshold := opts.useWorkerThreshold.getD (10 * 1024 * 1024)
  let chunks := createChunks f chunkSize
  (if f.size ≥ useWorkerThreshold then .multi else .single, chunks)

/-- An element of the value passed to `calculateAllHashes`: a `File`, or any
non-`File` value (`!(f instanceof File)`). -/
inductive BatchElem where
  | file (f : File)
  | notFile
deriving Repr, DecidableEq

def BatchElem.isFile : BatchElem → Bool
  | .file _ => true
  | .notFile => false

/-- The `File` held by a validated element (dummy for `notFile`, which the
validation in `calculateAllHashes` rules out before this is consulted). -/
def BatchElem.asFile : BatchElem → File
  | .file f => f
  | .notFile => ⟨"", []⟩

/-- The value passed to `calculateAllHashes`: an array of elements, or any
non-array value (`!Array.isArray(files)`). -/
inductive BatchInput where
  | arr (xs : List BatchElem)
  | notArray
deriving Repr, DecidableEq

/-- Validity: `files` is an array whose elements are all `File`s. -/
def validBatch : BatchInput → Bool
  | .arr xs => xs.all (fun e => e.isFile)
  | .notArray => false

/-- The per-file record resolved by `calculateAllHashes`. -/
structure HashResult where
  name : String
  hash : Option (List Nat)
  error : Option String
deriving Repr, DecidableEq

/-- The settled outcome of one `processFile(file)` call inside a batch:
the resolved digest, or the caught per-file error.  `calculateAllHashes` is
parametrized by it because each file's hashing runs in its own
environment-scheduled runner. -/
abbrev FileRun := File → Except String (List Nat)

/-- The task body plus final mapping of `calculateAllHashes` (lines 260–283)
for one file: a success becomes `{name, hash, error: undefined}`, a caught
failure becomes `{name, hash: null, error}`. -/
def hashResultOf (runFile : FileRun) (f : File) : HashResult :=
  match runFile f with
  | .ok h => { name := f.name, hash := some h, error := none }
  | .error e => { name := f.name, hash := none, error := some e }

/-- Model of `calculateAllHashes(files, options)` (lines 202–283): validate the batch
input up front (`TypeError` on a non-array or on any non-`File` element),
then run every file under the concurrency limiter and collect the results
by input index (`Promise.all` + `results.map((result, index) => …)`). -/
def calculateAllHashes (runFile : FileRun) :
    BatchInput → Except String (List HashResult)
  | .notArray => .error "必须传入文件数组"
  | .arr xs =>
    if xs.any (fun e => !e.isFile) then .error "文件数组中包含非File对象"
    else .ok (xs.map (fun e => hashResultOf runFile e.asFile))

/-! ### Chunker lemmas -/

/-- One step of the ceiling division `⌈n / cs⌉` (as `(n + cs - 1) / cs`):
removing one chunk's worth decreases the count by exactly one. -/
lemma ceil_div_succ (n cs : Nat) (hcs : 0 < cs) (hn : 0 < n) :
    (n + cs - 1) / cs = (n - cs + cs - 1) / cs + 1 := by
  rcases Nat.lt_or_ge cs n with h | h
  · have e1 : n + cs - 1 = n - 1 + cs := by omega
    have e2 : n - cs + cs - 1 = n - cs - 1 + cs := by omega
    have e3 : n - 1 = n - cs - 1 + cs := by omega
    rw [e1, e2, Nat.add_div_right _ hcs, Nat.add_div_right _ hcs, e3,
      Nat.add_div_right _ hcs]
  · have e1 : n - cs + cs - 1 = cs - 1 := by omega
    have e2 : n + cs - 1 = n - 1 + cs := by omega
    rw [e1, e2, Nat.add_div_right _ hcs,
      Nat.div_eq_of_lt (show n - 1 < cs by omega),
      Nat.div_eq_of_lt (show cs - 1 < cs by omega)]

/-- The slice taken at offset `i` followed by the rest of the file is the
rest of the file from offset `i`. -/
lemma slice_drop (f : File) (cs i : Nat) (hi : i < f.size) :
    f.slice i (min (i + cs) f.size) ++ f.content.drop (i + cs) =
      f.content.drop i := by
  unfold File.slice
  have h1 : f.content.take (min (i + cs) f.size) = f.content.take (i + cs) := by
    rw [List.take_eq_take]
    simp only [File.size] at hi ⊢
    omega
  have h2 : i + cs - i = cs := by omega
  rw [h1, List.drop_take, h2, ← List.drop_drop, List.take_append_drop]

/-- The chunks from offset `i` concatenate to the file's bytes from `i`. -/
lemma createChunksFrom_flatten (f : File) (cs : Nat) (hcs : 0 < cs) (i : Nat) :
    ((createChunksFrom f cs i).map Chunk.data).flatten = f.content.drop i := by
  rw [createChunksFrom]
  by_cases hi : i < f.size
  · rw [dif_pos ⟨hcs, hi⟩]
    simp only [List.map_cons, List.flatten_cons]
    rw [createChunksFrom_flatten f cs hcs (i + cs)]
    exact slice_drop f cs i hi
  · rw [dif_neg (fun h => hi h.2)]
    have : f.content.length ≤ i := by
      simp only [File.size] at hi; omega
    simp [List.drop_eq_nil_of_le this]
termination_by f.size - i
decreasing_by omega

/-- Closed form of the chunking loop from offset `i`: one chunk per `cs`-wide
window, `⌈(size - i) / cs⌉` of them. -/
lemma createChunksFrom_eq (f : File) (cs : Nat) (hcs : 0 < cs) (i : Nat) :
    createChunksFrom f cs i =
      (List.range ((f.size - i + cs - 1) / cs)).map (fun j =>
        { data := f.slice (i + j * cs) (min (i + (j + 1) * cs) f.size)
          fileId := f.name }) := by
  rw [createChunksFrom]
  by_cases hi : i < f.size
  · rw [dif_pos ⟨hcs, hi⟩, createChunksFrom_eq f cs hcs (i + cs)]
    have hceil : (f.size - i + cs - 1) / cs =
        (f.size - (i + cs) + cs - 1) / cs + 1 := by
      have h := ceil_div_succ (f.size - i) cs hcs (by omega)
      have e : f.size - i - cs = f.size - (i + cs) := by omega
      rw [e] at h
      exact h
    rw [hceil, List.range_succ_eq_map, List.map_cons, List.map_map]
    refine congrArg₂ List.cons ?_ ?_
    · simp
    · refine List.map_congr_left fun a _ => ?_
      simp only [Function.comp_apply, Nat.succ_eq_add_one]
      have e1 : i + (a + 1) * cs = i + cs + a * cs := by ring
      have e2 : i + (a + 1 + 1) * cs = i + cs + (a + 1) * cs := by ring
      rw [e1, e2]
  · rw [dif_neg (fun h => hi h.2)]
    have h0 : f.size - i = 0 := by omega
    rw [h0, Nat.div_eq_of_lt (by omega)]
    simp
termination_by f.size - i
decreasing_by omega

/-! ### Claim theorems -/

/-- C3: for every file and every `chunkSize > 0`, `createChunks` returns
exactly `⌈size / chunkSize⌉` chunks (zero when the file is empty), the
`j`-th covering the byte range `[j·chunkSize, min((j+1)·chunkSize, size))`,
and their concatenation in sequence order is the file's bytes. -/
theorem createChunks_spec (f : File) (cs : Nat) (hcs : 0 < cs) :
    createChunks f cs =
      (List.range ((f.size + cs - 1) / cs)).map (fun j =>
        { data := f.slice (j * cs) (min ((j + 1) * cs) f.size)
          fileId := f.name })
  ∧ ((createChunks f cs).map Chunk.data).flatten = f.content
  ∧ (createChunks f cs).length = (f.size + cs - 1) / cs
  ∧ (f.size = 0 → createChunks f cs = []) := by
  have h0 := createChunksFrom_eq f cs hcs 0
  have hj := createChunksFrom_flatten f cs hcs 0
  simp only [Nat.sub_zero, Nat.zero_add, List.drop_zero] at h0 hj
  refine ⟨h0, hj, ?_, ?_⟩
  · rw [createChunks, h0]
    simp
  · intro hsz
    rw [createChunks, h0, hsz, Nat.zero_add, Nat.div_eq_of_lt (by omega)]
    simp

/-- Witness for C3 at the file `"a" ↦ [5, 6, 7]` with `chunkSize = 2`. -/
theorem createChunks_spec_witness :
    ((createChunks ⟨"a", [5, 6, 7]⟩ 2).map Chunk.data).flatten = [5, 6, 7]
  ∧ (createChunks ⟨"a", [5, 6, 7]⟩ 2).length = 2 :=
  ⟨(createChunks_spec ⟨"a", [5, 6, 7]⟩ 2 (by decide)).2.1,
    ((createChunks_spec ⟨"a", [5, 6, 7]⟩ 2 (by decide)).2.2.1).trans (by decide)⟩

/-- C1: the claimed reorder-before-append invariant fails on the code.
With two chunks `[0x00]` and `[0x01]`, two workers, and chunk 1's worker
finishing first, `handleMessage` appends the buffers in raw arrival order:
the accumulator receives `[1, 0]` and the digest of that stream is
resolved, while the concatenation of the chunks in ascending index order is
`[0, 1]`.  Nothing in the handler holds back or reorders early arrivals. -/
theorem multiThreadHash_folds_in_arrival_order :
    (mtRun 2 [⟨[0], "f"⟩, ⟨[1], "f"⟩] "f"
        [okMsg [⟨[0], "f"⟩, ⟨[1], "f"⟩] 1,
         okMsg [⟨[0], "f"⟩, ⟨[1], "f"⟩] 0]).spark.acc = [1, 0]
  ∧ (mtRun 2 [⟨[0], "f"⟩, ⟨[1], "f"⟩] "f"
        [okMsg [⟨[0], "f"⟩, ⟨[1], "f"⟩] 1,
         okMsg [⟨[0], "f"⟩, ⟨[1], "f"⟩] 0]).outcome = some (.ok [1, 0])
  ∧ (([⟨[0], "f"⟩, ⟨[1], "f"⟩] : List Chunk).map Chunk.data).flatten = [0, 1]
  ∧ ([1, 0] : List Nat) ≠ [0, 1] := by decide

/-- C2: the parallel and sequential runners disagree on the same chunk
list.  On chunks `[[0], [1]]` with the completion of chunk 1 arriving
first, `multiThreadHash` resolves the digest of the stream `[1, 0]`,
while `singleThreadHash` resolves the digest of `[0, 1]`; the digests
differ (the digest is modelled injectively in the appended stream, and MD5
is deterministic in it). -/
theorem multiThread_singleThread_digest_disagree :
    (mtRun 2 [⟨[0], "f"⟩, ⟨[1], "f"⟩] "f"
        [okMsg [⟨[0], "f"⟩, ⟨[1], "f"⟩] 1,
         okMsg [⟨[0], "f"⟩, ⟨[1], "f"⟩] 0]).outcome = some (.ok [1, 0])
  ∧ (singleThreadHash [⟨[0], "f"⟩, ⟨[1], "f"⟩] "f").1 = [0, 1]
  ∧ ([1, 0] : List Nat) ≠ [0, 1] := by decide

/-! ### Parallel-runner lemmas -/

/-- Once the promise has settled, every worker has been terminated and no
further message changes the state. -/
lemma handleMessage_settled (chunks : List Chunk) (fn : String) (s : MTState)
    (h : s.outcome.isSome) (m : WorkerMsg) :
    handleMessage chunks fn s m = s := by
  simp [handleMessage, h]

/-- A settled state absorbs any remaining schedule. -/
lemma foldl_handleMessage_settled (chunks : List Chunk) (fn : String)
    (s : MTState) (h : s.outcome.isSome) (l : List WorkerMsg) :
    l.foldl (handleMessage chunks fn) s = s := by
  induction l with
  | nil => rfl
  | cons m l ih => rw [List.foldl_cons, handleMessage_settled chunks fn s h m, ih]

/-- Splitting a schedule at a message. -/
lemma mtRun_append (hc : Nat) (chunks : List Chunk) (fn : String)
    (a b : List WorkerMsg) :
    mtRun hc chunks fn (a ++ b) =
      b.foldl (handleMessage chunks fn) (mtRun hc chunks fn a) := by
  simp [mtRun, List.foldl_append]

/-- C4: refuted as stated.  The error-branch rejection message
`分块处理错误: <error>` does not mention the failing chunk's index — runs
failing at chunk 0 and at chunk 1 reject with the identical message, so the
error cannot identify the failing index (only the missing-buffer branch
includes the index).  Moreover a worker result whose buffer is present but
empty is not rejected at all: `!buffer` is false for an empty
`ArrayBuffer`, so the handler appends zero bytes, counts the chunk and
leaves the promise pending rather than rejecting. -/
theorem multiThread_reject_ignores_index :
    (mtRun 2 [⟨[0], "f"⟩, ⟨[1], "f"⟩] "f" [⟨0, none, some "boom"⟩]).outcome =
      some (.err "分块处理错误: boom")
  ∧ (mtRun 2 [⟨[0], "f"⟩, ⟨[1], "f"⟩] "f" [⟨1, none, some "boom"⟩]).outcome =
      some (.err "分块处理错误: boom")
  ∧ (mtRun 2 [⟨[0], "f"⟩, ⟨[1], "f"⟩] "f" [⟨0, some [], none⟩]).outcome = none
  ∧ (mtRun 2 [⟨[0], "f"⟩, ⟨[1], "f"⟩] "f" [⟨0, some [], none⟩]).processedChunks = 1
    := by decide

/-- C4 (amended): whenever `multiThreadHash` receives a worker result
carrying an error, it terminates all workers and rejects with a message
containing the worker's error text (but not the chunk index); on a result
with a *missing* buffer it terminates all workers and rejects with a
message identifying the chunk's index.  In both cases no digest is ever
resolved afterwards, whatever further messages arrive.  (An empty-but-
present buffer is not an error case: it is appended and counted.) -/
theorem multiThread_rejects_on_error (hc : Nat) (chunks : List Chunk)
    (fn : String) (pre post : List WorkerMsg) (i : Nat) (e : String)
    (hpend : (mtRun hc chunks fn pre).outcome = none)
    (hin : i ∈ (mtRun hc chunks fn pre).inFlight) :
    ((mtRun hc chunks fn (pre ++ ⟨i, none, some e⟩ :: post)).outcome =
        some (.err ("分块处理错误: " ++ e))
      ∧ (mtRun hc chunks fn (pre ++ ⟨i, none, some e⟩ :: post)).allTerminated = true)
  ∧ ((mtRun hc chunks fn (pre ++ ⟨i, none, none⟩ :: post)).outcome =
        some (.err ("分块数据为空: " ++ toString i))
      ∧ (mtRun hc chunks fn (pre ++ ⟨i, none, none⟩ :: post)).allTerminated = true) := by
  have hstep1 : handleMessage chunks fn (mtRun hc chunks fn pre) ⟨i, none, some e⟩ =
      { mtRun hc chunks fn pre with
          outcome := some (.err ("分块处理错误: " ++ e)), allTerminated := true } := by
    simp [handleMessage, hpend, hin]
  have hstep2 : handleMessage chunks fn (mtRun hc chunks fn pre) ⟨i, none, none⟩ =
      { mtRun hc chunks fn pre with
          outcome := some (.err ("分块数据为空: " ++ toString i)),
          allTerminated := true } := by
    simp [handleMessage, hpend, hin]
  rw [mtRun_append, mtRun_append, List.foldl_cons, List.foldl_cons, hstep1, hstep2,
    foldl_handleMessage_settled _ _ _ (by simp),
    foldl_handleMessage_settled _ _ _ (by simp)]
  simp

/-- Witness for C4 (amended): a worker error for chunk 0 of a two-chunk
run, and a missing buffer for chunk 1, each reject immediately. -/
theorem multiThread_rejects_on_error_witness :
    ((mtRun 2 [⟨[0], "f"⟩, ⟨[1], "f"⟩] "f" [⟨0, none, some "x"⟩]).outcome =
        some (.err ("分块处理错误: " ++ "x"))
      ∧ (mtRun 2 [⟨[0], "f"⟩, ⟨[1], "f"⟩] "f" [⟨0, none, some "x"⟩]).allTerminated = true)
  ∧ ((mtRun 2 [⟨[0], "f"⟩, ⟨[1], "f"⟩] "f" [⟨0, none, none⟩]).outcome =
        some (.err ("分块数据为空: " ++ toString 0))
      ∧ (mtRun 2 [⟨[0], "f"⟩, ⟨[1], "f"⟩] "f" [⟨0, none, none⟩]).allTerminated = true) :=
  multiThread_rejects_on_error 2 [⟨[0], "f"⟩, ⟨[1], "f"⟩] "f" [] [] 0 "x"
    (by decide) (by decide)

/-- C5: the batch call `calculateAllHashes` rejects with a `TypeError` exactly when the
batch input is not an array of valid `File`s; the decision is made up
front, before any hashing work runs (the result of an invalid call does not
depend on the per-file hashing behavior at all); and on a valid batch it
always resolves, converting each per-file failure into a `HashResult` with
`hash` null and the error populated while the sibling entries keep their
own outcomes. -/
theorem calculateAllHashes_validation (runFile : FileRun) (input : BatchInput) :
    ((calculateAllHashes runFile input).isOk = validBatch input)
  ∧ (validBatch input = false → ∀ runFile₂ : FileRun,
      calculateAllHashes runFile₂ input = calculateAllHashes runFile input)
  ∧ (∀ xs, input = .arr xs → validBatch input = true →
      calculateAllHashes runFile input =
        .ok (xs.map (fun e => hashResultOf runFile e.asFile)))
  ∧ (∀ f e, runFile f = .error e →
      hashResultOf runFile f = { name := f.name, hash := none, error := some e }) := by
  refine ⟨?_, ?_, ?_, ?_⟩
  · cases input with
    | notArray => rfl
    | arr xs =>
      simp only [calculateAllHashes, validBatch, List.all_eq_not_any_not]
      by_cases h : xs.any (fun e => !e.isFile) <;> simp [h, Except.isOk, Except.toBool]
  · intro hinv runFile₂
    cases input with
    | notArray => rfl
    | arr xs =>
      simp only [validBatch, List.all_eq_not_any_not, Bool.not_eq_false'] at hinv
      simp [calculateAllHashes, hinv]
  · rintro xs rfl hval
    simp only [validBatch, List.all_eq_not_any_not, Bool.not_eq_true'] at hval
    simp [calculateAllHashes, hval]
  · intro f e he
    simp [hashResultOf, he]

/-- Witness for C5: a two-file batch where the second file's hashing fails
with `"boom"` resolves to per-file results, the failing one converted to
`hash = none` with the error recorded. -/
theorem calculateAllHashes_validation_witness :
    calculateAllHashes
        (fun f => if f.name = "bad" then .error "boom" else .ok f.content)
        (.arr [.file ⟨"a", [1]⟩, .file ⟨"bad", [9]⟩]) =
      .ok [{ name := "a", hash := some [1], error := none },
           { name := "bad", hash := none, error := some "boom" }] :=
  ((calculateAllHashes_validation
      (fun f => if f.name = "bad" then .error "boom" else .ok f.content)
      (.arr [.file ⟨"a", [1]⟩, .file ⟨"bad", [9]⟩])).2.2.1
    [.file ⟨"a", [1]⟩, .file ⟨"bad", [9]⟩] rfl (by decide)).trans (by rfl)

/-- C6: on a valid batch, `calculateAllHashes` resolves to exactly one
`HashResult` per input file, in input order: the list of result names is
the list of input file names, position by position, independently of how
the per-file operations behave (completion order is abstracted by
`Promise.all`, which fills the result array by input index). -/
theorem calculateAllHashes_order (runFile : FileRun) (xs : List BatchElem)
    (hval : validBatch (.arr xs) = true) :
    ∃ rs, calculateAllHashes runFile (.arr xs) = .ok rs
      ∧ rs.length = xs.length
      ∧ rs.map HashResult.name = xs.map (fun e => e.asFile.name)
      ∧ rs = xs.map (fun e => hashResultOf runFile e.asFile) := by
  refine ⟨xs.map (fun e => hashResultOf runFile e.asFile), ?_, by simp, ?_, rfl⟩
  · simp only [validBatch, List.all_eq_not_any_not, Bool.not_eq_true'] at hval
    simp [calculateAllHashes, hval]
  · rw [List.map_map]
    refine List.map_congr_left fun e _ => ?_
    show (hashResultOf runFile e.asFile).name = e.asFile.name
    cases hf : runFile e.asFile <;> simp [hashResultOf, hf]

/-- Witness for C6: a concrete valid batch keeps input order in its
results. -/
theorem calculateAllHashes_order_witness :
    ∃ rs, calculateAllHashes (fun f => .ok f.content)
        (.arr [.file ⟨"b", [2]⟩, .file ⟨"a", [1]⟩]) = .ok rs
      ∧ rs.length = 2
      ∧ rs.map HashResult.name = ["b", "a"] :=
  match calculateAllHashes_order (fun f => .ok f.content)
      [.file ⟨"b", [2]⟩, .file ⟨"a", [1]⟩] (by decide) with
  | ⟨rs, h1, h2, h3, _⟩ => ⟨rs, h1, h2.trans (by decide), h3.trans (by decide)⟩

/-- C7: the selector `calculateHash` routes to the parallel runner exactly when
`file.size >= useWorkerThreshold` (default `10 * 1024 * 1024`), and to the
sequential runner otherwise; a file of exactly the threshold size goes
parallel and one a byte smaller goes sequential. -/
theorem calculateHash_threshold_routing (f : File) (opts : HashOptions) :
    ((calculateHash f opts).1 = .multi ↔
      opts.useWorkerThreshold.getD (10 * 1024 * 1024) ≤ f.size)
  ∧ ((calculateHash f opts).1 = .single ↔
      f.size < opts.useWorkerThreshold.getD (10 * 1024 * 1024))
  ∧ (f.size = opts.useWorkerThreshold.getD (10 * 1024 * 1024) →
      (calculateHash f opts).1 = .multi)
  ∧ (f.size + 1 = opts.useWorkerThreshold.getD (10 * 1024 * 1024) →
      (calculateHash f opts).1 = .single) := by
  have hroute : (calculateHash f opts).1 =
      if opts.useWorkerThreshold.getD (10 * 1024 * 1024) ≤ f.size then Route.multi
      else Route.single := by
    simp only [calculateHash, ge_iff_le]
  rw [hroute]
  generalize opts.useWorkerThreshold.getD (10 * 1024 * 1024) = t
  by_cases h : t ≤ f.size
  · rw [if_pos h]
    refine ⟨by simp [h], by simp; omega, fun _ => rfl, fun hc => absurd h (by omega)⟩
  · rw [if_neg h]
    refine ⟨by simp; omega, by simp; omega, fun hc => absurd h (by omega), fun _ => rfl⟩

/-- Witness for C7: with threshold 2, a 2-byte file goes parallel and a
1-byte file goes sequential. -/
theorem calculateHash_threshold_routing_witness :
    (calculateHash ⟨"a", [7, 8]⟩ ⟨none, some 2⟩).1 = .multi
  ∧ (calculateHash ⟨"b", [7]⟩ ⟨none, some 2⟩).1 = .single :=
  ⟨(calculateHash_threshold_routing ⟨"a", [7, 8]⟩ ⟨none, some 2⟩).2.2.1 (by decide),
   (calculateHash_threshold_routing ⟨"b", [7]⟩ ⟨none, some 2⟩).2.2.2 (by decide)⟩

/-! ### Progress lemmas -/

/-- The percent string is `"100.0"` when all chunks are in. -/
lemma percentStr_self (N : Nat) (h : 0 < N) : percentStr N N = "100.0" := by
  have h1 : (2000 * N + N) / (2 * N) = 1000 := by
    have h2 : 2000 * N + N = N + (2 * N) * 1000 := by ring
    rw [h2, Nat.add_mul_div_left _ _ (by omega), Nat.div_eq_of_lt (by omega)]
  simp only [percentStr, h1]
  rfl

/-- Closed form of the sequential loop: the accumulator gains the chunks'
bytes in order, and one progress record is emitted per chunk, `current`
counting up from `done + 1`. -/
lemma singleThreadAux_eq (fn : String) (total : Nat) (chunks : List Chunk) :
    ∀ (spark : Spark) (done : Nat),
      singleThreadAux fn total chunks spark done =
        (⟨spark.acc ++ (chunks.map Chunk.data).flatten⟩,
         (List.range chunks.length).map (fun k =>
           { name := some fn, current := done + k + 1, total := total
             percent := percentStr (done + k + 1) total })) := by
  induction chunks with
  | nil => intro spark done; simp [singleThreadAux]
  | cons c rest ih =>
    intro spark done
    rw [singleThreadAux, ih]
    simp only [Spark.append, List.map_cons, List.flatten_cons, List.append_assoc,
      List.length_cons, List.range_succ_eq_map, List.map_map, Prod.mk.injEq]
    refine ⟨trivial, ?_⟩
    refine congrArg₂ List.cons (by simp) ?_
    refine List.map_congr_left fun k _ => ?_
    simp only [Function.comp_apply, Nat.succ_eq_add_one]
    have e : done + (k + 1) + 1 = done + 1 + k + 1 := by omega
    rw [e]

/-- Closed form of `singleThreadHash`: the digest of the chunks'
concatenation, and progress records `1, 2, …, N`. -/
lemma singleThreadHash_eq (chunks : List Chunk) (fn : String) :
    singleThreadHash chunks fn =
      ((chunks.map Chunk.data).flatten,
       (List.range chunks.length).map (fun k =>
         { name := some fn, current := k + 1, total := chunks.length
           percent := percentStr (k + 1) chunks.length })) := by
  simp [singleThreadHash, singleThreadAux_eq, Spark.new, Spark.finalize]

/-- The last element of `1, …, N` is `N`. -/
lemma range'_one_getLast (N : Nat) (h : 0 < N) :
    (List.range' 1 N).getLast? = some N := by
  obtain ⟨M, rfl⟩ : ∃ M, N = M + 1 := ⟨N - 1, by omega⟩
  rw [List.range'_concat, List.getLast?_concat]
  simp [Nat.add_comm]

/-- A progress trace whose `current`s are `1, …, N` and whose entries carry
total `N`, the formatted percent and the file name ends in the record
`{name, N, N, "100.0"}`. -/
lemma progress_last (ps : List ProgressData) (N : Nat) (hN : 0 < N) (fn : String)
    (hcur : ps.map ProgressData.current = List.range' 1 N)
    (hall : ∀ p ∈ ps, p.total = N ∧ p.percent = percentStr p.current N
      ∧ p.name = some fn) :
    ps.getLast? = some ⟨some fn, N, N, "100.0"⟩ := by
  have hlast : (ps.map ProgressData.current).getLast? = some N := by
    rw [hcur]
    exact range'_one_getLast N hN
  rw [List.getLast?_map] at hlast
  obtain ⟨p, hp, hcurp⟩ := Option.map_eq_some'.mp hlast
  obtain ⟨ht, hpc, hname⟩ := hall p (List.mem_of_getLast?_eq_some hp)
  rw [hp]
  obtain ⟨pn, pc, pt, pp⟩ := p
  simp only at ht hpc hname hcurp
  subst hcurp
  subst ht
  subst hname
  rw [hpc, percentStr_self _ hN]

/-- The progress invariant of one `multiThreadHash` invocation: `current`s
count `1, …, processedChunks` in emission order, every record carries
`total = N`, the formatted percent and the file name, and the promise only
resolves once all `N` chunks have been folded. -/
def mtProgressInv (chunks : List Chunk) (fn : String) (s : MTState) : Prop :=
  s.progress.map ProgressData.current = List.range' 1 s.processedChunks
  ∧ (∀ p ∈ s.progress, p.total = chunks.length
      ∧ p.percent = percentStr p.current chunks.length ∧ p.name = some fn)
  ∧ (∀ d, s.outcome = some (.ok d) → s.processedChunks = chunks.length)

/-- The step `handleMessage` preserves the progress invariant. -/
lemma handleMessage_inv (chunks : List Chunk) (fn : String) (s : MTState)
    (m : WorkerMsg) (h : mtProgressInv chunks fn s) :
    mtProgressInv chunks fn (handleMessage chunks fn s m) := by
  obtain ⟨h1, h2, h3⟩ := h
  unfold handleMessage
  by_cases ho : s.outcome.isSome
  · simp only [ho, if_true]
    exact ⟨h1, h2, h3⟩
  · simp only [ho, if_false, Bool.false_eq_true]
    by_cases hm : m.index ∈ s.inFlight
    · simp only [hm, if_true]
      cases herr : m.error with
      | some e =>
        exact ⟨h1, h2, fun d hd => by simp at hd⟩
      | none =>
        cases hbuf : m.buffer with
        | none =>
          exact ⟨h1, h2, fun d hd => by simp at hd⟩
        | some b =>
          have hnone : s.outcome = none := by
            cases hx : s.outcome with
            | none => rfl
            | some v => rw [hx] at ho; simp at ho
          have hrange : List.range' 1 (s.processedChunks + 1) =
              List.range' 1 s.processedChunks ++ [s.processedChunks + 1] := by
            rw [List.range'_concat]
            simp [Nat.add_comm]
          have hcur : (s.progress ++
              [({ name := some fn, current := s.processedChunks + 1
                  total := chunks.length
                  percent := percentStr (s.processedChunks + 1) chunks.length } :
                ProgressData)]).map
                ProgressData.current = List.range' 1 (s.processedChunks + 1) := by
            rw [List.map_append, h1, hrange]
            rfl
          have hmem : ∀ p ∈ s.progress ++
              [({ name := some fn, current := s.processedChunks + 1
                  total := chunks.length
                  percent := percentStr (s.processedChunks + 1) chunks.length } :
                ProgressData)],
              p.total = chunks.length
              ∧ p.percent = percentStr p.current chunks.length
              ∧ p.name = some fn := by
            intro p hp
            rcases List.mem_append.mp hp with hp | hp
            · exact h2 p hp
            · rcases List.mem_singleton.mp hp with rfl
              exact ⟨rfl, rfl, rfl⟩
          dsimp only
          by_cases hcnt : s.processedChunks + 1 = chunks.length
          · by_cases hcin : s.currentIndex < chunks.length
            · rw [if_pos hcin, if_pos hcnt]
              exact ⟨hcur, hmem, fun d _ => hcnt⟩
            · rw [if_neg hcin, if_pos hcnt]
              exact ⟨hcur, hmem, fun d _ => hcnt⟩
          · by_cases hcin : s.currentIndex < chunks.length
            · rw [if_pos hcin, if_neg hcnt]
              exact ⟨hcur, hmem, fun d hd => by simp [hnone] at hd⟩
            · rw [if_neg hcin, if_neg hcnt]
              exact ⟨hcur, hmem, fun d hd => by simp [hnone] at hd⟩
    · simp only [hm, if_false, Bool.false_eq_true]
      exact ⟨h1, h2, h3⟩

/-- The invariant holds at initialization. -/
lemma mtInit_inv (hc : Nat) (chunks : List Chunk) (fn : String) :
    mtProgressInv chunks fn (mtInit hc chunks) := by
  refine ⟨by simp [mtInit], by simp [mtInit], ?_⟩
  intro d hd
  simp [mtInit] at hd

/-- The invariant holds after any schedule of worker messages. -/
lemma mtRun_inv (hc : Nat) (chunks : List Chunk) (fn : String)
    (sched : List WorkerMsg) : mtProgressInv chunks fn (mtRun hc chunks fn sched) := by
  rw [mtRun]
  have hfold : ∀ (l : List WorkerMsg) (s : MTState), mtProgressInv chunks fn s →
      mtProgressInv chunks fn (l.foldl (handleMessage chunks fn) s) := by
    intro l
    induction l with
    | nil => exact fun s hs => hs
    | cons m l ih =>
      intro s hs
      exact ih _ (handleMessage_inv chunks fn s m hs)
  exact hfold sched _ (mtInit_inv hc chunks fn)

/-- C8: for every non-empty chunk list of length `N`, both runners emit
progress whose `current`s are exactly `1, 2, …, N` in order (so they are
non-decreasing, start at 1 and reach `N` exactly once, at the final
invocation), every record carries `total = N` and
`percent = (current/total·100).toFixed(1)`, and the final record is
`{current := N, total := N, percent := "100.0"}`.  For `multiThreadHash`
this holds for every schedule of worker completions that resolves a
digest. -/
theorem progress_monotone_spec (fn : String) (chunks : List Chunk)
    (hne : chunks ≠ []) :
    ((singleThreadHash chunks fn).2.map ProgressData.current =
        List.range' 1 chunks.length
      ∧ (∀ p ∈ (singleThreadHash chunks fn).2, p.total = chunks.length
          ∧ p.percent = percentStr p.current chunks.length ∧ p.name = some fn)
      ∧ (singleThreadHash chunks fn).2.getLast? =
          some ⟨some fn, chunks.length, chunks.length, "100.0"⟩)
  ∧ (∀ (hc : Nat) (sched : List WorkerMsg) (d : List Nat),
      (mtRun hc chunks fn sched).outcome = some (.ok d) →
        ((mtRun hc chunks fn sched).progress.map ProgressData.current =
            List.range' 1 chunks.length
          ∧ (∀ p ∈ (mtRun hc chunks fn sched).progress, p.total = chunks.length
              ∧ p.percent = percentStr p.current chunks.length ∧ p.name = some fn)
          ∧ (mtRun hc chunks fn sched).progress.getLast? =
              some ⟨some fn, chunks.length, chunks.length, "100.0"⟩)) := by
  have hN : 0 < chunks.length := List.length_pos.mpr hne
  constructor
  · rw [singleThreadHash_eq]
    have hcur : ((List.range chunks.length).map (fun k =>
        ({ name := some fn, current := k + 1, total := chunks.length
           percent := percentStr (k + 1) chunks.length } : ProgressData))).map
          ProgressData.current = List.range' 1 chunks.length := by
      rw [List.map_map, List.range'_eq_map_range]
      refine List.map_congr_left fun k _ => ?_
      simp [Nat.add_comm]
    have hall : ∀ p ∈ (List.range chunks.length).map (fun k =>
        ({ name := some fn, current := k + 1, total := chunks.length
           percent := percentStr (k + 1) chunks.length } : ProgressData)),
        p.total = chunks.length ∧ p.percent = percentStr p.current chunks.length
          ∧ p.name = some fn := by
      intro p hp
      obtain ⟨k, _, rfl⟩ := List.mem_map.mp hp
      exact ⟨rfl, rfl, rfl⟩
    exact ⟨hcur, hall, progress_last _ _ hN fn hcur hall⟩
  · intro hc sched d hok
    obtain ⟨h1, h2, h3⟩ := mtRun_inv hc chunks fn sched
    rw [h3 d hok] at h1
    exact ⟨h1, h2, progress_last _ _ hN fn h1 h2⟩

/-- Witness for C8: two chunks, sequential currents `[1, 2]`, and a
completed parallel run whose final progress record reads `100.0%`. -/
theorem progress_monotone_spec_witness :
    ((singleThreadHash [⟨[0], "f"⟩, ⟨[1], "f"⟩] "f").2.map ProgressData.current =
        List.range' 1 2)
  ∧ (mtRun 2 [⟨[0], "f"⟩, ⟨[1], "f"⟩] "f"
        [okMsg [⟨[0], "f"⟩, ⟨[1], "f"⟩] 0,
         okMsg [⟨[0], "f"⟩, ⟨[1], "f"⟩] 1]).progress.getLast? =
      some ⟨some "f", 2, 2, "100.0"⟩ :=
  ⟨(progress_monotone_spec "f" [⟨[0], "f"⟩, ⟨[1], "f"⟩] (by decide)).1.1,
   ((progress_monotone_spec "f" [⟨[0], "f"⟩, ⟨[1], "f"⟩] (by decide)).2 2
      [okMsg [⟨[0], "f"⟩, ⟨[1], "f"⟩] 0, okMsg [⟨[0], "f"⟩, ⟨[1], "f"⟩] 1]
      [0, 1] (by decide)).2.2⟩

/-- C9: on an empty chunk list `singleThreadHash` never enters its loop: it
resolves the digest of the empty input (finalizing a fresh accumulator)
and invokes `onProgress` zero times. -/
theorem singleThread_empty_digest (fn : String) :
    singleThreadHash [] fn = (emptyInputDigest, []) := rfl

/-- On an empty chunk list the runner spawns no workers and dispatches no
tasks: the state is inert. -/
lemma mtInit_nil (hc : Nat) :
    mtInit hc [] = ⟨0, 0, 0, Spark.new, [], [], none, false⟩ := by
  simp [mtInit, mtInitLoop]

/-- On an empty chunk list, no schedule changes the inert initial state. -/
lemma mtRun_nil (hc : Nat) (fn : String) (sched : List WorkerMsg) :
    mtRun hc [] fn sched = ⟨0, 0, 0, Spark.new, [], [], none, false⟩ := by
  rw [mtRun, mtInit_nil]
  induction sched with
  | nil => rfl
  | cons m l ih =>
    rw [List.foldl_cons]
    have hstep : handleMessage [] fn ⟨0, 0, 0, Spark.new, [], [], none, false⟩ m =
        ⟨0, 0, 0, Spark.new, [], [], none, false⟩ := by
      simp [handleMessage]
    rw [hstep, ih]

/-- C10: for the empty chunk list, `multiThreadHash` computes a worker
count of zero (`min(hardwareConcurrency || 4, 0)`), spawns no workers and
dispatches no tasks; since `resolve` and `reject` are only reachable from
the worker message handler, the promise never settles: its outcome is
`none` after every schedule, no bytes are appended and no progress is
reported. -/
theorem multiThread_empty_never_settles (hc : Nat) (fn : String)
    (sched : List WorkerMsg) :
    (mtRun hc [] fn sched).workerCount = 0
  ∧ (mtRun hc [] fn sched).currentIndex = 0
  ∧ (mtRun hc [] fn sched).inFlight = []
  ∧ (mtRun hc [] fn sched).progress = []
  ∧ (mtRun hc [] fn sched).outcome = none := by
  rw [mtRun_nil]
  exact ⟨rfl, rfl, rfl, rfl, rfl⟩

end MtgHash
